import Mathlib

/-!
Verification development for the stock/price synchronisation scripts
`seller.py` (Ozon) and `market.py` (Yandex Market).

The pure core of both scripts is shallowly embedded below:
* `pyInt` — the base-10 integer parse performed by Python's `int(...)`
  on a string argument (ASCII whitespace stripping, optional sign,
  digits with single interior underscores);
* `normalizeQuantity` — the quantity branch shared by both
  `create_stocks` implementations (`seller.py` lines 183-189,
  `market.py` lines 168-174);
* `price_conversion` — `seller.py` lines 232-245;
* `chunks` / `divide` — the generator `divide` of `seller.py`
  lines 248-265, including Python `range` semantics for
  non-positive steps;
* `reconcileLoopG`, `create_stocks`, `market_create_stocks`,
  `create_prices` — the reconciliation functions, with the in-place
  mutation of `offer_ids` made explicit as state passing;
* `submitSeq` / batching — the upload loops of `upload_stocks`;
* `market_loop` / `seller_loop` — the two pagination loops of
  `get_offer_ids`, with termination made explicit by fuel.

Fallible Python code (raised exceptions) is embedded with `Except` /
`Option`; machine integers are `Int` (Python integers are unbounded).
-/

/-- ASCII whitespace characters stripped by Python's `int(str)`. -/
def pyWs (c : Char) : Bool :=
  c == ' ' || c == '\t' || c == '\n' || c == '\r' || c == '\x0b' || c == '\x0c'

/-- Strip leading and trailing whitespace from a character list. -/
def pyStrip (s : List Char) : List Char :=
  ((s.dropWhile pyWs).reverse.dropWhile pyWs).reverse

/-- Numeric value of an ASCII digit character. -/
def digitVal (c : Char) : Nat := c.toNat - 48

/-- Continuation of the digit-sequence parse: after at least one digit,
Python's `int` grammar allows further digits, each group optionally
preceded by a single underscore. -/
def pyDigitsAux : Nat → List Char → Option Nat
  | acc, [] => some acc
  | acc, '_' :: c :: rest =>
    if c.isDigit then pyDigitsAux (10 * acc + digitVal c) rest else none
  | _, ['_'] => none
  | acc, c :: rest =>
    if c.isDigit then pyDigitsAux (10 * acc + digitVal c) rest else none

/-- Digit-sequence parse of Python's `int` grammar: a leading digit, then
digits with single interior underscores. -/
def pyDigits : List Char → Option Nat
  | [] => none
  | c :: rest => if c.isDigit then pyDigitsAux (digitVal c) rest else none

/-- `pyInt s` is `some n` exactly when Python's `int(s)` returns `n`
(for ASCII numerals, as produced by the feed), and `none` when `int(s)`
raises `ValueError`. -/
def pyInt (s : String) : Option Int :=
  match pyStrip s.data with
  | '+' :: rest => (pyDigits rest).map (fun n => (n : Int))
  | '-' :: rest => (pyDigits rest).map (fun n => -(n : Int))
  | cs => (pyDigits cs).map (fun n => (n : Int))

/-- One record of the Timeworld feed (`watch_remnants`): the fields
`"Код"`, `"Количество"`, `"Цена"` read by the reconcilers, as strings
(the code paths apply `str(...)` before use). -/
structure FeedRecord where
  code : String
  quantity : String
  price : String
deriving Repr, DecidableEq

/-- The quantity branch of `create_stocks` (identical in `seller.py`
lines 183-189 and `market.py` lines 168-174): `">10"` maps to 100,
`"1"` maps to 0, anything else goes through `int(...)`, whose
`ValueError` is embedded as `Except.error`. -/
def normalizeQuantity (t : String) : Except String Int :=
  if t = ">10" then .ok 100
  else if t = "1" then .ok 0
  else
    match pyInt t with
    | some n => .ok n
    | none => .error "invalid literal for int() with base 10"

/-- `price_conversion` of `seller.py` lines 232-245:
`re.sub("[^0-9]", "", price.split(".")[0])`. The prefix before the
first `'.'` (`split(".")[0]` = `takeWhile (· ≠ '.')`) is filtered down
to its ASCII digits. The function is total on strings: neither `split`
nor `re.sub` can raise. -/
def price_conversion (price : String) : String :=
  String.mk ((price.data.takeWhile (fun c => c ≠ '.')).filter Char.isDigit)

/-- The slices produced by `divide` of `seller.py` lines 248-265 for a
positive step `n`: `lst[i : i + n]` for `i` in `range(0, len(lst), n)`. -/
def chunks : List α → Nat → List (List α)
  | [], _ => []
  | _ :: _, 0 => []
  | a :: as, n + 1 => (a :: as).take (n + 1) :: chunks ((a :: as).drop (n + 1)) (n + 1)
termination_by l _ => l.length
decreasing_by
  simp only [List.drop_succ_cons, List.length_drop, List.length_cons]
  omega

/-- Full embedding of `divide(lst, n)` when the generator is iterated:
`range(0, len(lst), 0)` raises `ValueError`; a negative step gives an
empty `range` (since `len(lst) ≥ 0`), hence no slices; a positive step
yields the `chunks`. -/
def divide (lst : List α) (n : Int) : Except String (List (List α)) :=
  if n = 0 then .error "range() arg 3 must not be zero"
  else if n < 0 then .ok []
  else .ok (chunks lst n.toNat)

/-- One stock record built by `seller.py`'s `create_stocks`:
`{"offer_id": ..., "stock": ...}`. -/
structure SellerStock where
  offer_id : String
  stock : Int
deriving Repr, DecidableEq

/-- One `items` entry of a Yandex Market stock record
(`market.py` lines 179-186). -/
structure MarketStockItem where
  count : Int
  type : String
  updatedAt : String
deriving Repr, DecidableEq

/-- One stock record built by `market.py`'s `create_stocks`:
`{"sku": ..., "warehouseId": ..., "items": [...]}`; the warehouse id is
passed through unchanged, so its type is a parameter. -/
structure MarketStock (W : Type) where
  sku : String
  warehouseId : W
  items : List MarketStockItem
deriving Repr, DecidableEq

/-- The matching loop shared verbatim by both `create_stocks`
implementations (`seller.py` lines 181-191, `market.py` lines 166-188),
abstracted over the record constructor `mk` applied to the matched code
and its normalized count. The in-place `offer_ids.remove(...)` mutation
is embedded as state passing: the second component of the result is the
final value of the caller's `offer_ids` list (Python `list.remove`
deletes the first occurrence, i.e. `List.erase`). A `ValueError` from
`int(...)` aborts the whole call. -/
def reconcileLoopG (mk : String → Int → σ) :
    List FeedRecord → List String → Except String (List σ × List String)
  | [], offerIds => .ok ([], offerIds)
  | w :: ws, offerIds =>
    if w.code ∈ offerIds then
      match normalizeQuantity w.quantity with
      | .error e => .error e
      | .ok n =>
        (reconcileLoopG mk ws (offerIds.erase w.code)).map
          (fun p => (mk w.code n :: p.1, p.2))
    else reconcileLoopG mk ws offerIds

/-- `create_stocks` of `seller.py` lines 165-194: matched records in
feed order, then a zero-fill record for every offer id left in the
(mutated) `offer_ids` list. -/
def create_stocks (feed : List FeedRecord) (offerIds : List String) :
    Except String (List SellerStock) :=
  (reconcileLoopG SellerStock.mk feed offerIds).map
    (fun p => p.1 ++ p.2.map (fun o => SellerStock.mk o 0))

/-- `create_stocks` together with the final state of the caller's
`offer_ids` list (which `seller.py` mutates in place). -/
def create_stocksS (feed : List FeedRecord) (offerIds : List String) :
    Except String (List SellerStock × List String) :=
  (reconcileLoopG SellerStock.mk feed offerIds).map
    (fun p => (p.1 ++ p.2.map (fun o => SellerStock.mk o 0), p.2))

/-- `create_stocks` of `market.py` lines 145-203: same loop, Yandex
record shape; `date` is the single `utcnow()` timestamp computed at
entry. -/
def market_create_stocks {W : Type} (feed : List FeedRecord) (offerIds : List String)
    (warehouseId : W) (date : String) : Except String (List (MarketStock W)) :=
  (reconcileLoopG (fun c n => MarketStock.mk c warehouseId [MarketStockItem.mk n "FIT" date])
      feed offerIds).map
    (fun p => p.1 ++ p.2.map (fun o => MarketStock.mk o warehouseId [MarketStockItem.mk 0 "FIT" date]))

/-- One price record built by `seller.py`'s `create_prices`
(lines 221-227). -/
structure SellerPrice where
  auto_action_enabled : String
  currency_code : String
  offer_id : String
  old_price : String
  price : String
deriving Repr, DecidableEq

/-- The record `create_prices` appends for a matched feed record. -/
def mkSellerPrice (w : FeedRecord) : SellerPrice :=
  SellerPrice.mk "UNKNOWN" "RUB" w.code "0" (price_conversion w.price)

/-- `create_prices` of `seller.py` lines 197-229: one record per feed
record whose code is in `offer_ids` (which it does not mutate), in feed
order. Total: `price_conversion` cannot fail. -/
def create_prices : List FeedRecord → List String → List SellerPrice
  | [], _ => []
  | w :: ws, offerIds =>
    if w.code ∈ offerIds then mkSellerPrice w :: create_prices ws offerIds
    else create_prices ws offerIds

/-- The submission loop of `upload_stocks` (`seller.py` lines 316-317,
`market.py` lines 282-283): each batch is submitted in order; an
exception raised by a submission aborts the loop and propagates. The
result is the list of batches actually submitted together with the
error, if any. -/
def submitSeq (submit : List α → Except ε Unit) : List (List α) → List (List α) × Option ε
  | [] => ([], none)
  | b :: bs =>
    match submit b with
    | .error e => ([b], some e)
    | .ok _ => ((submitSeq submit bs).1.cons b, (submitSeq submit bs).2)

/-- The body of `upload_stocks` after reconciliation: `for some_stock in
list(divide(stocks, n)): update_stocks(...)` — the source instantiates
`n` with the per-marketplace constant (100 for Ozon stocks, 1000/900
for Ozon prices, 2000 for Yandex stocks, 500 for Yandex prices). -/
def upload_batches (stocks : List α) (n : Int) (submit : List α → Except ε Unit) :
    Except String (List (List α) × Option ε) :=
  (divide stocks n).map (submitSeq submit)

/-- One entry of the Yandex `offerMappingEntries` page, reduced to the
field read by `get_offer_ids` (`product.get("offer").get("shopSku")`). -/
structure MarketEntry where
  shopSku : String
deriving Repr, DecidableEq

/-- One page returned by `market.py`'s `get_product_list`: the entries
and `paging.nextPageToken`; a missing/`None` token is embedded as `""`
(both are falsy for the `if not page: break` test). -/
structure MarketPage where
  entries : List MarketEntry
  nextPageToken : String
deriving Repr, DecidableEq

/-- The pagination loop of `market.py`'s `get_offer_ids`
(lines 131-138), with the page-fetch capability passed explicitly and
termination made explicit by fuel: `none` means the loop did not reach
its break within `fuel` iterations. -/
def market_loop (fetch : String → MarketPage) : Nat → String → List MarketEntry → Option (List MarketEntry)
  | 0, _, _ => none
  | fuel + 1, page, acc =>
    let p := fetch page
    if p.nextPageToken = "" then some (acc ++ p.entries)
    else market_loop fetch fuel p.nextPageToken (acc ++ p.entries)

/-- `get_offer_ids` of `market.py` lines 115-142: run the pagination
loop from the empty page token, then project every accumulated entry to
its `shopSku`, in discovery order, without deduplication. -/
def market_get_offer_ids (fetch : String → MarketPage) (fuel : Nat) : Option (List String) :=
  (market_loop fetch fuel "" []).map (fun l => l.map MarketEntry.shopSku)

/-- One item of an Ozon product page, reduced to the field read by
`get_offer_ids` (`product.get("offer_id")`). -/
structure SellerItem where
  offer_id : String
deriving Repr, DecidableEq

/-- One page returned by `seller.py`'s `get_product_list`: the `items`,
the reported `total`, and the `last_id` cursor. -/
structure SellerPage where
  items : List SellerItem
  total : Int
  last_id : String
deriving Repr, DecidableEq

/-- The pagination loop of `seller.py`'s `get_offer_ids` (lines 65-73):
accumulate `items`, break when the page's `total` equals the number of
accumulated entries. Fuel as in `market_loop`. -/
def seller_loop (fetch : String → SellerPage) : Nat → String → List SellerItem → Option (List SellerItem)
  | 0, _, _ => none
  | fuel + 1, lastId, acc =>
    let p := fetch lastId
    if p.total = ((acc ++ p.items).length : Int) then some (acc ++ p.items)
    else seller_loop fetch fuel p.last_id (acc ++ p.items)

/-- `get_offer_ids` of `seller.py` lines 50-77: run the loop from the
empty `last_id`, then project each accumulated item to its `offer_id`. -/
def seller_get_offer_ids (fetch : String → SellerPage) (fuel : Nat) : Option (List String) :=
  (seller_loop fetch fuel "" []).map (fun l => l.map SellerItem.offer_id)

/-- The codes of the feed records that match (and consume) an offer,
in feed order — the trace of the matching loop's first branch. -/
def matchedCodes : List FeedRecord → List String → List String
  | [], _ => []
  | w :: ws, offerIds =>
    if w.code ∈ offerIds then w.code :: matchedCodes ws (offerIds.erase w.code)
    else matchedCodes ws offerIds

/-- The final state of the `offer_ids` list after the matching loop:
the offers never matched, in their original order. -/
def leftover : List FeedRecord → List String → List String
  | [], offerIds => offerIds
  | w :: ws, offerIds =>
    if w.code ∈ offerIds then leftover ws (offerIds.erase w.code)
    else leftover ws offerIds

/-- On success, the matching loop returns exactly the matched records
(in feed order, projecting to `matchedCodes`) and the `leftover`
offer list. -/
theorem reconcileLoopG_ok {σ : Type} (mk : String → Int → σ) (idOf : σ → String)
    (hmk : ∀ c n, idOf (mk c n) = c) :
    ∀ (feed : List FeedRecord) (offerIds : List String) (ms : List σ) (rest : List String),
      reconcileLoopG mk feed offerIds = .ok (ms, rest) →
      ms.map idOf = matchedCodes feed offerIds ∧ rest = leftover feed offerIds := by
  intro feed
  induction feed with
  | nil =>
    intro offerIds ms rest h
    simp only [reconcileLoopG, Except.ok.injEq] at h
    obtain ⟨rfl, rfl⟩ := Prod.mk.injEq .. ▸ (Prod.ext_iff.mp h.symm)
    simp [matchedCodes, leftover]
  | cons w ws ih =>
    intro offerIds ms rest h
    simp only [reconcileLoopG] at h
    by_cases hmem : w.code ∈ offerIds
    · simp only [if_pos hmem] at h
      cases hq : normalizeQuantity w.quantity with
      | error e => rw [hq] at h; exact absurd h (by simp)
      | ok n =>
        rw [hq] at h
        cases hrec : reconcileLoopG mk ws (offerIds.erase w.code) with
        | error e => rw [hrec] at h; exact absurd h (by simp [Except.map])
        | ok p =>
          rw [hrec] at h
          simp only [Except.map, Except.ok.injEq] at h
          obtain ⟨ms', rest'⟩ := p
          obtain ⟨hms, hrest⟩ := Prod.ext_iff.mp h.symm
          simp only at hms hrest
          obtain ⟨h1, h2⟩ := ih (offerIds.erase w.code) ms' rest' hrec
          subst hms hrest
          simp [matchedCodes, leftover, hmem, hmk, h1, h2]
    · simp only [if_neg hmem] at h
      obtain ⟨h1, h2⟩ := ih offerIds ms rest h
      simp [matchedCodes, leftover, hmem, h1, h2]

/-- The matched codes and the leftover together are a permutation of
the original offer list: each match removes exactly one occurrence. -/
theorem matchedCodes_append_leftover_perm :
    ∀ (feed : List FeedRecord) (offerIds : List String),
      (matchedCodes feed offerIds ++ leftover feed offerIds).Perm offerIds := by
  intro feed
  induction feed with
  | nil => intro offerIds; simp [matchedCodes, leftover]
  | cons w ws ih =>
    intro offerIds
    by_cases hmem : w.code ∈ offerIds
    · simp only [matchedCodes, leftover, if_pos hmem, List.cons_append]
      exact ((ih (offerIds.erase w.code)).cons w.code).trans
        (List.perm_cons_erase hmem).symm
    · simpa [matchedCodes, leftover, hmem] using ih offerIds

/-- The leftover offers form a subsequence of the original offer list:
zero-fill records appear in original catalog discovery order. -/
theorem leftover_sublist :
    ∀ (feed : List FeedRecord) (offerIds : List String),
      (leftover feed offerIds).Sublist offerIds := by
  intro feed
  induction feed with
  | nil => intro offerIds; simp [leftover]
  | cons w ws ih =>
    intro offerIds
    by_cases hmem : w.code ∈ offerIds
    · simp only [leftover, if_pos hmem]
      exact (ih (offerIds.erase w.code)).trans (offerIds.erase_sublist w.code)
    · simpa [leftover, hmem] using ih offerIds

/-- `create_prices` is the feed-order filter of the matching records,
mapped to price payloads; it never consumes offers. -/
theorem create_prices_eq_filter_map :
    ∀ (feed : List FeedRecord) (offerIds : List String),
      create_prices feed offerIds =
        (feed.filter (fun w => decide (w.code ∈ offerIds))).map mkSellerPrice := by
  intro feed
  induction feed with
  | nil => intro offerIds; simp [create_prices]
  | cons w ws ih =>
    intro offerIds
    by_cases hmem : w.code ∈ offerIds
    · simp [create_prices, hmem, ih]
    · simp [create_prices, hmem, ih]

/-- Unfolding equation for `chunks` on a nonempty list and positive size. -/
theorem chunks_cons (a : α) (as : List α) (n : Nat) :
    chunks (a :: as) (n + 1) = (a :: as).take (n + 1) :: chunks ((a :: as).drop (n + 1)) (n + 1) := by
  rw [chunks]

/-- `chunks` of a nonempty list with a positive size is nonempty. -/
theorem chunks_ne_nil (a : α) (as : List α) (n : Nat) :
    chunks (a :: as) (n + 1) ≠ [] := by
  rw [chunks_cons]; exact List.cons_ne_nil _ _

/-- Concatenating the slices gives back the original list. -/
theorem chunks_flatten (l : List α) (n : Nat) (hn : n ≠ 0) :
    (chunks l n).flatten = l := by
  induction l, n using chunks.induct with
  | case1 n => simp [chunks]
  | case2 a as => omega
  | case3 a as n ih =>
    rw [chunks_cons]
    simp only [List.flatten_cons, ih (Nat.succ_ne_zero n)]
    exact List.take_append_drop _ _

/-- The number of slices is `⌈len / n⌉`. -/
theorem chunks_length (l : List α) (n : Nat) (hn : n ≠ 0) :
    (chunks l n).length = (l.length + n - 1) / n := by
  induction l, n using chunks.induct with
  | case1 n =>
    simp only [chunks, List.length_nil, List.length]
    rw [Nat.div_eq_of_lt (by omega)]
  | case2 a as => omega
  | case3 a as n ih =>
    rw [chunks_cons]
    simp only [List.length_cons, ih (Nat.succ_ne_zero n), List.length_drop,
      Nat.succ_eq_add_one]
    by_cases hle : as.length + 1 ≤ n + 1
    · have h1 : as.length + 1 - (n + 1) = 0 := by omega
      have hx : 0 + (n + 1) - 1 = n := by omega
      have hy : as.length + 1 + (n + 1) - 1 = as.length + 1 + n := by omega
      have e1 : n / (n + 1) = 0 := Nat.div_eq_of_lt (by omega)
      have e2 : (as.length + 1 + n) / (n + 1) = 1 := by
        have hz : as.length + 1 + n = as.length + (n + 1) := by omega
        rw [hz, Nat.add_div_right _ (Nat.succ_pos n), Nat.div_eq_of_lt (by omega)]
      rw [h1, hx, hy, e1, e2]
    · have h1 : as.length + 1 - (n + 1) + (n + 1) - 1 = as.length := by omega
      have h2 : as.length + 1 + (n + 1) - 1 = as.length + (n + 1) := by omega
      rw [h1, h2, Nat.add_div_right _ (Nat.succ_pos n)]

/-- Every slice except the last has exactly `n` elements. -/
theorem chunks_dropLast_length (l : List α) (n : Nat) (hn : n ≠ 0) :
    ∀ b ∈ (chunks l n).dropLast, b.length = n := by
  induction l, n using chunks.induct with
  | case1 n => simp [chunks]
  | case2 a as => omega
  | case3 a as n ih =>
    rw [chunks_cons]
    by_cases hd : (a :: as).drop (n + 1) = []
    · rw [hd]
      simp [chunks]
    · obtain ⟨x, xs, hdrop⟩ : ∃ x xs, (a :: as).drop (n + 1) = x :: xs := by
        cases hc : (a :: as).drop (n + 1) with
        | nil => exact absurd hc hd
        | cons x xs => exact ⟨x, xs, rfl⟩
      obtain ⟨b0, bs, hb⟩ : ∃ b0 bs, chunks ((a :: as).drop (n + 1)) (n + 1) = b0 :: bs := by
        rw [hdrop, chunks_cons]; exact ⟨_, _, rfl⟩
      intro b hmem
      rw [hb, List.dropLast_cons₂] at hmem
      rcases List.mem_cons.mp hmem with hbt | hbt
      · subst hbt
        have h0 : ((a :: as).drop (n + 1)).length ≠ 0 :=
          fun hc => hd (List.length_eq_zero.mp hc)
        rw [List.length_drop] at h0
        rw [List.length_take]
        omega
      · exact ih (Nat.succ_ne_zero n) b (hb ▸ hbt)

/-- The last slice holds the remainder: `len % n` elements, or `n` when
`n` divides `len` evenly. -/
theorem chunks_getLast_length (l : List α) (n : Nat) (hn : n ≠ 0) :
    ∀ b, (chunks l n).getLast? = some b →
      b.length = if l.length % n = 0 then n else l.length % n := by
  induction l, n using chunks.induct with
  | case1 n => intro b hb; simp [chunks] at hb
  | case2 a as => omega
  | case3 a as n ih =>
    intro b hb
    rw [chunks_cons] at hb
    by_cases hd : (a :: as).drop (n + 1) = []
    · rw [hd] at hb
      simp only [chunks, List.getLast?_singleton, Option.some.injEq] at hb
      subst hb
      have h0 := congrArg List.length hd
      rw [List.length_drop] at h0
      simp only [List.length_nil] at h0
      rw [List.length_take]
      by_cases hL : (a :: as).length = n + 1
      · simp [hL, Nat.mod_self]
      · have hlt : (a :: as).length < n + 1 := by omega
        have hpos : (a :: as).length ≠ 0 := by simp
        rw [Nat.mod_eq_of_lt hlt, if_neg hpos]
        omega
    · obtain ⟨x, xs, hdrop⟩ : ∃ x xs, (a :: as).drop (n + 1) = x :: xs := by
        cases hc : (a :: as).drop (n + 1) with
        | nil => exact absurd hc hd
        | cons x xs => exact ⟨x, xs, rfl⟩
      obtain ⟨b0, bs, hbc⟩ : ∃ b0 bs, chunks ((a :: as).drop (n + 1)) (n + 1) = b0 :: bs := by
        rw [hdrop, chunks_cons]; exact ⟨_, _, rfl⟩
      rw [hbc, List.getLast?_cons_cons] at hb
      have hlen := ih (Nat.succ_ne_zero n) b (hbc ▸ hb)
      have h0 : ((a :: as).drop (n + 1)).length ≠ 0 :=
        fun hc => hd (List.length_eq_zero.mp hc)
    
      rw [List.length_drop] at hlen h0
      have hmod : ((a :: as).length - (n + 1)) % (n + 1) = (a :: as).length % (n + 1) := by
        conv_rhs => rw [show (a :: as).length = ((a :: as).length - (n + 1)) + (n + 1) by omega]
        rw [Nat.add_mod_right]
      rw [hmod] at hlen
      exact hlen

/-- If every batch is accepted, all batches are submitted in order and
no error is reported. -/
theorem submitSeq_all_ok {α ε : Type} (submit : List α → Except ε Unit) :
    ∀ bs : List (List α), (∀ b ∈ bs, submit b = .ok ()) →
      submitSeq submit bs = (bs, none) := by
  intro bs
  induction bs with
  | nil => intro _; rfl
  | cons b bs ih =>
    intro h
    have hb : submit b = .ok () := h b (List.mem_cons_self b bs)
    have ht := ih (fun x hx => h x (List.mem_cons_of_mem b hx))
    simp [submitSeq, hb, ht]

/-- If the first rejected batch is at index `k`, exactly the batches
`0..k` are submitted (in order) and the rejection propagates; no batch
after `k` is submitted. -/
theorem submitSeq_stops {α ε : Type} (submit : List α → Except ε Unit) :
    ∀ (bs : List (List α)) (k : Nat) (e : ε) (hk : k < bs.length),
      (∀ j (hj : j < k), submit (bs.get ⟨j, by omega⟩) = .ok ()) →
      submit (bs.get ⟨k, hk⟩) = .error e →
      submitSeq submit bs = (bs.take (k + 1), some e) := by
  intro bs
  induction bs with
  | nil => intro k e hk; exact absurd hk (by simp)
  | cons b bs ih =>
    intro k e hk hok herr
    cases k with
    | zero =>
      have herr0 : submit b = .error e := herr
      simp [submitSeq, herr0]
    | succ k =>
      have hb : submit b = .ok () := hok 0 (Nat.succ_pos k)
      have hk' : k < bs.length := by
        simpa [List.length_cons, Nat.succ_lt_succ_iff] using hk
      have hok' : ∀ j (hj : j < k), submit (bs.get ⟨j, by omega⟩) = .ok () :=
        fun j hj => hok (j + 1) (Nat.succ_lt_succ hj)
      have herr' : submit (bs.get ⟨k, hk'⟩) = .error e := herr
      have ht := ih k e hk' hok' herr'
      simp [submitSeq, hb, ht]

/-- The cursor chain induced by a Yandex page-fetch capability: the
first request uses the empty page token, each later one the previous
page's `nextPageToken`. -/
def marketCursor (fetch : String → MarketPage) : Nat → String
  | 0 => ""
  | i + 1 => (fetch (marketCursor fetch i)).nextPageToken

/-- The entries of pages `j, j+1, ..., j+d` of the chain, concatenated
in discovery order. -/
def marketEntriesFrom (fetch : String → MarketPage) : Nat → Nat → List MarketEntry
  | j, 0 => (fetch (marketCursor fetch j)).entries
  | j, d + 1 => (fetch (marketCursor fetch j)).entries ++ marketEntriesFrom fetch (j + 1) d

/-- Generalized loop invariant for the Yandex pagination loop: from
page `j` of a chain whose first empty `nextPageToken` occurs at page
`k`, with enough fuel, the loop returns the accumulator followed by
the entries of pages `j..k`. -/
theorem market_loop_go (fetch : String → MarketPage) (k : Nat)
    (hterm : (fetch (marketCursor fetch k)).nextPageToken = "")
    (hmin : ∀ i, i < k → (fetch (marketCursor fetch i)).nextPageToken ≠ "") :
    ∀ (d j : Nat) (acc : List MarketEntry) (fuel : Nat), j + d = k → d < fuel →
      market_loop fetch fuel (marketCursor fetch j) acc =
        some (acc ++ marketEntriesFrom fetch j d) := by
  intro d
  induction d with
  | zero =>
    intro j acc fuel hj hf
    obtain ⟨f, rfl⟩ : ∃ f, fuel = f + 1 := ⟨fuel - 1, by omega⟩
    have hjk : j = k := by omega
    subst hjk
    simp only [market_loop]
    rw [if_pos hterm]
    rfl
  | succ d ih =>
    intro j acc fuel hj hf
    obtain ⟨f, rfl⟩ : ∃ f, fuel = f + 1 := ⟨fuel - 1, by omega⟩
    have hjk : j < k := by omega
    simp only [market_loop]
    rw [if_neg (hmin j hjk)]
    have hnext : (fetch (marketCursor fetch j)).nextPageToken = marketCursor fetch (j + 1) := rfl
    rw [hnext, ih (j + 1) (acc ++ (fetch (marketCursor fetch j)).entries) f (by omega) (by omega)]
    rw [List.append_assoc]
    rfl

/-- The cursor chain of the Ozon pagination loop: the first request uses
the empty `last_id`, each later one the previous page's `last_id`. -/
def sellerCursor (fetch : String → SellerPage) : Nat → String
  | 0 => ""
  | i + 1 => (fetch (sellerCursor fetch i)).last_id

/-- The items accumulated by the Ozon loop before requesting page `j`:
the items of pages `0..j-1`, in discovery order. -/
def sellerAccBefore (fetch : String → SellerPage) : Nat → List SellerItem
  | 0 => []
  | j + 1 => sellerAccBefore fetch j ++ (fetch (sellerCursor fetch j)).items

/-- Generalized loop invariant for the Ozon pagination loop: if the
reported `total` first equals the accumulated size after page `k`, then
from page `j` with the matching accumulator and enough fuel the loop
returns the items of pages `0..k`. -/
theorem seller_loop_go (fetch : String → SellerPage) (k : Nat)
    (hterm : (fetch (sellerCursor fetch k)).total = ((sellerAccBefore fetch (k + 1)).length : Int))
    (hmin : ∀ i, i < k →
      (fetch (sellerCursor fetch i)).total ≠ ((sellerAccBefore fetch (i + 1)).length : Int)) :
    ∀ (d j : Nat) (fuel : Nat), j + d = k → d < fuel →
      seller_loop fetch fuel (sellerCursor fetch j) (sellerAccBefore fetch j) =
        some (sellerAccBefore fetch (k + 1)) := by
  intro d
  induction d with
  | zero =>
    intro j fuel hj hf
    obtain ⟨f, rfl⟩ : ∃ f, fuel = f + 1 := ⟨fuel - 1, by omega⟩
    have hjk : j = k := by omega
    subst hjk
    simp only [seller_loop]
    have hacc : sellerAccBefore fetch j ++ (fetch (sellerCursor fetch j)).items
        = sellerAccBefore fetch (j + 1) := rfl
    rw [hacc, if_pos hterm]
  | succ d ih =>
    intro j fuel hj hf
    obtain ⟨f, rfl⟩ : ∃ f, fuel = f + 1 := ⟨fuel - 1, by omega⟩
    have hjk : j < k := by omega
    simp only [seller_loop]
    have hacc : sellerAccBefore fetch j ++ (fetch (sellerCursor fetch j)).items
        = sellerAccBefore fetch (j + 1) := rfl
    rw [hacc, if_neg (hmin j hjk)]
    have hnext : (fetch (sellerCursor fetch j)).last_id = sellerCursor fetch (j + 1) := rfl
    rw [hnext, ih (j + 1) f (by omega) (by omega)]

/-- A `takeWhile` stops exactly at the first failing element. -/
theorem takeWhile_append_stop {α : Type} (q : α → Bool) (a : α) (ha : q a = false) :
    ∀ (s t : List α), (∀ c ∈ s, q c = true) →
      (s ++ a :: t).takeWhile q = s := by
  intro s
  induction s with
  | nil => intro t _; simp [List.takeWhile_cons, ha]
  | cons x xs ih =>
    intro t h
    simp [List.takeWhile_cons, h x (List.mem_cons_self x xs),
      ih t (fun c hc => h c (List.mem_cons_of_mem x hc))]

/-- A `takeWhile` whose predicate holds everywhere returns the list. -/
theorem takeWhile_eq_self_of_all {α : Type} (q : α → Bool) :
    ∀ l : List α, (∀ c ∈ l, q c = true) → l.takeWhile q = l := by
  intro l
  induction l with
  | nil => intro _; rfl
  | cons x xs ih =>
    intro h
    simp [List.takeWhile_cons, h x (List.mem_cons_self x xs),
      ih (fun c hc => h c (List.mem_cons_of_mem x hc))]

/-- The apostrophe character (the thousands separator of the feed's
price tokens). -/
def apos : Char := Char.ofNat 39

/-- C3: the quantity normalizer maps the literal token ">10" to 100 and
the literal token "1" to 0; every other token is parsed as a base-10
integer (so "7" gives 7), and an unparseable token fails with the
`int()` format error. -/
theorem C3_normalize_quantity :
    normalizeQuantity ">10" = .ok 100 ∧
    normalizeQuantity "1" = .ok 0 ∧
    normalizeQuantity "7" = .ok 7 ∧
    (∀ (t : String) (n : Int), t ≠ ">10" → t ≠ "1" → pyInt t = some n →
      normalizeQuantity t = .ok n) ∧
    (∀ t : String, t ≠ ">10" → t ≠ "1" → pyInt t = none →
      normalizeQuantity t = .error "invalid literal for int() with base 10") := by
  refine ⟨rfl, rfl, rfl, ?_, ?_⟩
  · intro t n h1 h2 hp
    simp [normalizeQuantity, h1, h2, hp]
  · intro t h1 h2 hp
    simp [normalizeQuantity, h1, h2, hp]

/-- C3 witness: the general clauses applied to the concrete tokens "7"
(parseable) and "5 шт." (unparseable). -/
theorem C3_normalize_quantity_witness :
    normalizeQuantity "7" = .ok 7 ∧
    normalizeQuantity "5 шт." = .error "invalid literal for int() with base 10" := by
  constructor
  · exact C3_normalize_quantity.2.2.2.1 "7" 7 (by decide) (by decide) rfl
  · exact C3_normalize_quantity.2.2.2.2 "5 шт." (by decide) (by decide) rfl

/-- C4: `price_conversion` truncates its argument at the first `'.'`
(discarding everything from the dot on), removes every character that
is not an ASCII digit from the remaining prefix, and returns the digit
string; with the three spec examples (`'` below is the apostrophe
thousands separator). -/
theorem C4_price_conversion :
    (∀ s t : List Char, '.' ∉ s →
      price_conversion (String.mk (s ++ '.' :: t)) = String.mk (s.filter Char.isDigit)) ∧
    (∀ p : String, '.' ∉ p.data →
      price_conversion p = String.mk (p.data.filter Char.isDigit)) ∧
    price_conversion (String.mk ['5', apos, '9', '9', '0', '.', '0', '0', ' ', 'р', 'у', 'б', '.'])
      = "5990" ∧
    price_conversion "1234.56 USD" = "1234" ∧
    price_conversion (String.mk ['1', '0', apos, '0', '0', '0', '.', '5', '0', ' ', 'р', 'у', 'б', '.'])
      = "10000" := by
  refine ⟨?_, ?_, by decide, by decide, by decide⟩
  · intro s t hs
    show String.mk (((s ++ '.' :: t).takeWhile _).filter Char.isDigit) = _
    rw [takeWhile_append_stop _ '.' (by simp) s t
      (fun c hc => by simp; exact fun h => hs (h ▸ hc))]
  · intro p hp
    show String.mk ((p.data.takeWhile _).filter Char.isDigit) = _
    rw [takeWhile_eq_self_of_all _ p.data
      (fun c hc => by simp; exact fun h => hp (h ▸ hc))]

/-- C4 witness: the truncation clause applied at the concrete split
"1234" / "56 USD", and the no-dot clause at "42 RUB". -/
theorem C4_price_conversion_witness :
    price_conversion (String.mk (['1', '2', '3', '4'] ++ '.' :: ['5', '6', ' ', 'U', 'S', 'D']))
      = String.mk (['1', '2', '3', '4'].filter Char.isDigit) ∧
    price_conversion "42 RUB" = String.mk ("42 RUB".data.filter Char.isDigit) := by
  constructor
  · exact C4_price_conversion.1 ['1', '2', '3', '4'] ['5', '6', ' ', 'U', 'S', 'D'] (by decide)
  · exact C4_price_conversion.2.1 "42 RUB" (by decide)

/-- C5 counterexample: on a price token with no digit before the first
`'.'`, `price_conversion` returns the empty string — a value, not a
`FormatError`. The function body (`re.sub` over `split(".")[0]`) has no
failing operation, so the claimed error cannot occur. -/
theorem C5_counterexample :
    price_conversion (String.mk ['р', 'у', 'б', '.']) = "" := by decide

/-- C5 (amended): for every price token in which no ASCII digit occurs
before the first `'.'`, `price_conversion` returns the empty string
(it does not fail). -/
theorem C5_price_conversion_empty (p : String)
    (h : ∀ c ∈ p.data.takeWhile (fun c => c ≠ '.'), c.isDigit = false) :
    price_conversion p = "" := by
  show String.mk (List.filter _ _) = ""
  rw [List.filter_eq_nil_iff.mpr (fun c hc => by simp [h c hc])]

/-- C5 witness: the amended claim applied to the concrete token
`"руб."`. -/
theorem C5_price_conversion_empty_witness :
    price_conversion (String.mk ['р', 'у', 'б', '.', '5', '0']) = "" :=
  C5_price_conversion_empty (String.mk ['р', 'у', 'б', '.', '5', '0']) (by decide)

/-- C6: for every list and every positive batch size, `divide` yields
contiguous slices in original order whose concatenation is the input,
every slice of length `n` except the last, which holds `len % n`
elements (or `n` when `n` divides `len`), and the empty list yields no
slices. -/
theorem C6_divide {α : Type} (lst : List α) (n : Int) (hn : 0 < n) :
    ∃ cs : List (List α), divide lst n = .ok cs ∧
      cs.flatten = lst ∧
      (∀ b ∈ cs.dropLast, b.length = n.toNat) ∧
      (∀ b, cs.getLast? = some b →
        b.length = if lst.length % n.toNat = 0 then n.toNat else lst.length % n.toNat) ∧
      (lst = [] → cs = []) := by
  have hn0 : n.toNat ≠ 0 := by omega
  refine ⟨chunks lst n.toNat, ?_, chunks_flatten lst n.toNat hn0,
    chunks_dropLast_length lst n.toNat hn0, chunks_getLast_length lst n.toNat hn0, ?_⟩
  · have h1 : n ≠ 0 := by omega
    have h2 : ¬n < 0 := by omega
    simp [divide, h1, h2]
  · intro hl
    subst hl
    simp [chunks]

/-- C6 witness: the theorem applied to `[1..7]` with size 3 (the spec's
batching example). -/
theorem C6_divide_witness :
    ∃ cs : List (List Nat), divide [1, 2, 3, 4, 5, 6, 7] (3 : Int) = .ok cs ∧
      cs.flatten = [1, 2, 3, 4, 5, 6, 7] ∧
      (∀ b ∈ cs.dropLast, b.length = (3 : Int).toNat) ∧
      (∀ b, cs.getLast? = some b →
        b.length = if ([1, 2, 3, 4, 5, 6, 7] : List Nat).length % (3 : Int).toNat = 0
          then (3 : Int).toNat
          else ([1, 2, 3, 4, 5, 6, 7] : List Nat).length % (3 : Int).toNat) ∧
      (([1, 2, 3, 4, 5, 6, 7] : List Nat) = [] → cs = []) :=
  C6_divide [1, 2, 3, 4, 5, 6, 7] 3 (by norm_num)

/-- C7 counterexample: with the negative size -1 the iterated generator
raises nothing: `range(0, 3, -1)` is empty, so `divide([1,2,3], -1)`
yields the empty sequence of slices instead of failing with an
`InvalidArgument` error. -/
theorem C7_counterexample : divide ([1, 2, 3] : List Nat) (-1) = .ok [] := rfl

/-- C7 (amended): `divide(lst, n)` fails with the `range` `ValueError`
exactly when `n = 0`; for every negative `n` the generator yields the
empty sequence of slices (Python `range(0, len, n)` with a negative
step and a non-negative stop is empty). -/
theorem C7_divide_nonpositive {α : Type} (lst : List α) (n : Int) (hn : n ≤ 0) :
    divide lst n =
      if n = 0 then .error "range() arg 3 must not be zero" else .ok [] := by
  by_cases h0 : n = 0
  · simp [divide, h0]
  · have hneg : n < 0 := by omega
    simp [divide, h0, hneg]

/-- C7 witness: the amended claim applied at sizes 0 (error) and -2
(empty sequence). -/
theorem C7_divide_nonpositive_witness :
    divide ([1, 2] : List Nat) 0
      = (if (0 : Int) = 0 then .error "range() arg 3 must not be zero" else .ok []) ∧
    divide ([1, 2] : List Nat) (-2)
      = (if (-2 : Int) = 0 then .error "range() arg 3 must not be zero" else .ok []) :=
  ⟨C7_divide_nonpositive [1, 2] 0 (by norm_num), C7_divide_nonpositive [1, 2] (-2) (by norm_num)⟩

/-- Completeness of the reconciliation output, generically over the
record shape: on success the output has exactly one record per known
offer and its ids are a permutation of the offer list. -/
theorem reconcile_complete {σ : Type} (mk : String → Int → σ) (idOf : σ → String)
    (hmk : ∀ c n, idOf (mk c n) = c) (zero : String → σ) (hz : ∀ o, idOf (zero o) = o)
    (feed : List FeedRecord) (offerIds : List String) (S : List σ)
    (h : (reconcileLoopG mk feed offerIds).map (fun p => p.1 ++ p.2.map zero) = .ok S) :
    S.length = offerIds.length ∧ (S.map idOf).Perm offerIds := by
  cases hrec : reconcileLoopG mk feed offerIds with
  | error e => rw [hrec] at h; exact absurd h (by simp [Except.map])
  | ok p =>
    rw [hrec] at h
    simp only [Except.map, Except.ok.injEq] at h
    obtain ⟨ms, rest⟩ := p
    subst h
    have hperm : ((ms ++ rest.map zero).map idOf).Perm offerIds := by
      obtain ⟨h1, h2⟩ := reconcileLoopG_ok mk idOf hmk feed offerIds ms rest hrec
      rw [List.map_append, h1, List.map_map]
      have hcz : (idOf ∘ zero) = id := funext hz
      rw [hcz, List.map_id, h2]
      exact matchedCodes_append_leftover_perm feed offerIds
    refine ⟨?_, hperm⟩
    have hl := hperm.length_eq
    rwa [List.length_map] at hl

/-- C1: for every feed and known-offer list (duplicates allowed), a
successful `create_stocks` run — in either marketplace variant —
returns exactly `|K|` stock records whose offer ids form, as a
multiset, exactly the known-offer list `K`: no offer duplicated or
dropped, each either matched or zero-filled. -/
theorem C1_reconciliation_complete :
    (∀ (feed : List FeedRecord) (offerIds : List String) (S : List SellerStock),
      create_stocks feed offerIds = .ok S →
      S.length = offerIds.length ∧ (S.map SellerStock.offer_id).Perm offerIds) ∧
    (∀ (W : Type) (feed : List FeedRecord) (offerIds : List String) (wid : W) (date : String)
        (S : List (MarketStock W)),
      market_create_stocks feed offerIds wid date = .ok S →
      S.length = offerIds.length ∧ (S.map MarketStock.sku).Perm offerIds) := by
  constructor
  · intro feed offerIds S h
    exact reconcile_complete SellerStock.mk SellerStock.offer_id (fun _ _ => rfl)
      (fun o => SellerStock.mk o 0) (fun _ => rfl) feed offerIds S h
  · intro W feed offerIds wid date S h
    exact reconcile_complete (fun c n => MarketStock.mk c wid [MarketStockItem.mk n "FIT" date])
      MarketStock.sku (fun _ _ => rfl)
      (fun o => MarketStock.mk o wid [MarketStockItem.mk 0 "FIT" date]) (fun _ => rfl)
      feed offerIds S h

/-- C1 witness: the seller clause applied to the concrete run with feed
`[{"123-ABC", qty "5"}]` and offers `["123-ABC", "789-GHI"]`. -/
theorem C1_reconciliation_complete_witness :
    ([SellerStock.mk "123-ABC" 5, SellerStock.mk "789-GHI" 0].length
        = (["123-ABC", "789-GHI"] : List String).length) ∧
    (([SellerStock.mk "123-ABC" 5, SellerStock.mk "789-GHI" 0].map SellerStock.offer_id).Perm
        ["123-ABC", "789-GHI"]) :=
  C1_reconciliation_complete.1 [FeedRecord.mk "123-ABC" "5" "5990"] ["123-ABC", "789-GHI"]
    [SellerStock.mk "123-ABC" 5, SellerStock.mk "789-GHI" 0] rfl

/-- C8: a successful stock reconciliation consists of the matched
records first, in feed order, followed by zero-fill records for the
leftover offers, a subsequence of the original catalog order; the price
output is the feed-order filter of the records whose code matches a
known offer; a feed record matching no known offer contributes neither
a stock nor a price record (spec example included). -/
theorem C8_output_ordering :
    (∀ (feed : List FeedRecord) (offerIds : List String) (S : List SellerStock)
        (rest : List String),
      create_stocksS feed offerIds = .ok (S, rest) →
      ∃ ms : List SellerStock,
        S = ms ++ rest.map (fun o => SellerStock.mk o 0) ∧
        ms.map SellerStock.offer_id = matchedCodes feed offerIds ∧
        rest = leftover feed offerIds ∧
        rest.Sublist offerIds) ∧
    (∀ (feed : List FeedRecord) (offerIds : List String),
      create_prices feed offerIds =
        (feed.filter (fun w => decide (w.code ∈ offerIds))).map mkSellerPrice) ∧
    create_prices [FeedRecord.mk "999-ZZZ" "5" "100.00"] ["123-ABC"] = [] := by
  refine ⟨?_, create_prices_eq_filter_map, rfl⟩
  intro feed offerIds S rest h
  unfold create_stocksS at h
  cases hrec : reconcileLoopG SellerStock.mk feed offerIds with
  | error e => rw [hrec] at h; exact absurd h (by simp [Except.map])
  | ok p =>
    rw [hrec] at h
    obtain ⟨ms, rest0⟩ := p
    simp only [Except.map, Except.ok.injEq, Prod.mk.injEq] at h
    obtain ⟨hS, hrest⟩ := h
    subst hrest
    obtain ⟨h1, h2⟩ := reconcileLoopG_ok SellerStock.mk SellerStock.offer_id (fun _ _ => rfl)
      feed offerIds ms rest0 hrec
    exact ⟨ms, hS.symm, h1, h2, h2 ▸ leftover_sublist feed offerIds⟩

/-- C8 witness: the stock-ordering clause applied to the concrete run
with feed `[{"456-DEF"}, {"123-ABC"}]` and offers
`["123-ABC", "456-DEF", "789-GHI"]` (matched in feed order, zero-fill
in catalog order). -/
theorem C8_output_ordering_witness :
    ∃ ms : List SellerStock,
      [SellerStock.mk "456-DEF" 100, SellerStock.mk "123-ABC" 5, SellerStock.mk "789-GHI" 0]
        = ms ++ ["789-GHI"].map (fun o => SellerStock.mk o 0) ∧
      ms.map SellerStock.offer_id
        = matchedCodes [FeedRecord.mk "456-DEF" ">10" "1", FeedRecord.mk "123-ABC" "5" "2"]
            ["123-ABC", "456-DEF", "789-GHI"] ∧
      (["789-GHI"] : List String)
        = leftover [FeedRecord.mk "456-DEF" ">10" "1", FeedRecord.mk "123-ABC" "5" "2"]
            ["123-ABC", "456-DEF", "789-GHI"] ∧
      (["789-GHI"] : List String).Sublist ["123-ABC", "456-DEF", "789-GHI"] :=
  C8_output_ordering.1 [FeedRecord.mk "456-DEF" ">10" "1", FeedRecord.mk "123-ABC" "5" "2"]
    ["123-ABC", "456-DEF", "789-GHI"]
    [SellerStock.mk "456-DEF" 100, SellerStock.mk "123-ABC" 5, SellerStock.mk "789-GHI" 0]
    ["789-GHI"] rfl

/-- C10 counterexample: feed `[{code "A", qty "5"}]` against offers
`["A", "A"]`. The feed record DOES match during stock creation (its
count 5 comes from the feed and "A" is recorded in `matchedCodes`), one
occurrence of "A" is consumed, the duplicate "A" is zero-filled and
remains in the caller's list — and `create_prices` over that leftover
then emits a price record for the feed code "A". So a price record is
emitted for a feed code that did match an offer during stock creation,
contradicting the claim's final clause. -/
theorem C10_counterexample :
    create_stocksS [FeedRecord.mk "A" "5" "100.00"] ["A", "A"]
        = .ok ([SellerStock.mk "A" 5, SellerStock.mk "A" 0], ["A"]) ∧
    matchedCodes [FeedRecord.mk "A" "5" "100.00"] ["A", "A"] = ["A"] ∧
    create_prices [FeedRecord.mk "A" "5" "100.00"] ["A"]
        = [mkSellerPrice (FeedRecord.mk "A" "5" "100.00")] :=
  ⟨rfl, rfl, rfl⟩

/-- C10 (amended): `create_stocks` consumes its `offer_ids` argument in
place (embedded as the returned post-state): afterwards the caller's
list holds exactly the leftover offers — the ones zero-filled, i.e. the
final segment of the stock output — and a subsequent `create_prices`
over that same list emits price records exactly for the feed records
whose code is in the leftover. Only when the original `offer_ids` has
no duplicates does this coincide with the feed codes that did not match
any offer during stock creation. -/
theorem C10_leftover_prices (feed : List FeedRecord) (offerIds : List String)
    (S : List SellerStock) (rest : List String)
    (h : create_stocksS feed offerIds = .ok (S, rest)) :
    rest = leftover feed offerIds ∧
    S.drop (S.length - rest.length) = rest.map (fun o => SellerStock.mk o 0) ∧
    create_prices feed rest =
      (feed.filter (fun w => decide (w.code ∈ rest))).map mkSellerPrice ∧
    (offerIds.Nodup → ∀ c ∈ rest, c ∉ matchedCodes feed offerIds) := by
  unfold create_stocksS at h
  cases hrec : reconcileLoopG SellerStock.mk feed offerIds with
  | error e => rw [hrec] at h; exact absurd h (by simp [Except.map])
  | ok p =>
    rw [hrec] at h
    obtain ⟨ms, rest0⟩ := p
    simp only [Except.map, Except.ok.injEq, Prod.mk.injEq] at h
    obtain ⟨hS, hrest⟩ := h
    subst hrest
    obtain ⟨h1, h2⟩ := reconcileLoopG_ok SellerStock.mk SellerStock.offer_id (fun _ _ => rfl)
      feed offerIds ms rest0 hrec
    refine ⟨h2, ?_, create_prices_eq_filter_map feed rest0, ?_⟩
    · rw [← hS]
      have hlen : (ms ++ rest0.map (fun o => SellerStock.mk o 0)).length - rest0.length
          = ms.length := by
        simp [List.length_append]
      rw [hlen]
      have := List.drop_left ms (rest0.map (fun o => SellerStock.mk o 0))
      exact this
    · intro hnd c hc hcm
      have hperm := matchedCodes_append_leftover_perm feed offerIds
      have hnd2 : (matchedCodes feed offerIds ++ leftover feed offerIds).Nodup :=
        hperm.symm.nodup hnd
      have hdisj := (List.nodup_append.mp hnd2).2.2
      exact hdisj hcm (h2 ▸ hc)

/-- C10 witness: the amended claim applied to the concrete run with
feed `[{code "A", qty "5"}]` and offers `["A", "B"]`. -/
theorem C10_leftover_prices_witness :
    (["B"] : List String) = leftover [FeedRecord.mk "A" "5" "9"] ["A", "B"] ∧
    ([SellerStock.mk "A" 5, SellerStock.mk "B" 0].drop
        ([SellerStock.mk "A" 5, SellerStock.mk "B" 0].length - (["B"] : List String).length))
      = (["B"] : List String).map (fun o => SellerStock.mk o 0) ∧
    create_prices [FeedRecord.mk "A" "5" "9"] ["B"]
      = ([FeedRecord.mk "A" "5" "9"].filter
          (fun w => decide (w.code ∈ (["B"] : List String)))).map mkSellerPrice ∧
    ((["A", "B"] : List String).Nodup →
      ∀ c ∈ (["B"] : List String), c ∉ matchedCodes [FeedRecord.mk "A" "5" "9"] ["A", "B"]) :=
  C10_leftover_prices [FeedRecord.mk "A" "5" "9"] ["A", "B"]
    [SellerStock.mk "A" 5, SellerStock.mk "B" 0] ["B"] rfl

/-- C2: for a reconciled stock list of length `L` and positive batch
size `n`, the upload loop submits exactly `⌈L/n⌉` batches sequentially
in order — every batch of size `n` except the last, which holds
`L % n` records (or `n` when `n` divides `L`); if submission of batch
`k` fails, the batches before `k` and batch `k` itself are the only
ones submitted (nothing after `k`), and the failure propagates; if all
submissions succeed, every batch is submitted in order. -/
theorem C2_upload_batching {α ε : Type} (stocks : List α) (n : Nat) (hn : 0 < n)
    (submit : List α → Except ε Unit) (bs : List (List α)) (hbs : bs = chunks stocks n) :
    upload_batches stocks (n : Int) submit = .ok (submitSeq submit bs) ∧
    bs.length = (stocks.length + n - 1) / n ∧
    (∀ b ∈ bs.dropLast, b.length = n) ∧
    (∀ b, bs.getLast? = some b →
      b.length = if stocks.length % n = 0 then n else stocks.length % n) ∧
    (∀ (k : Nat) (e : ε) (hk : k < bs.length),
      (∀ j (hj : j < k), submit (bs.get ⟨j, by omega⟩) = .ok ()) →
      submit (bs.get ⟨k, hk⟩) = .error e →
      submitSeq submit bs = (bs.take (k + 1), some e)) ∧
    ((∀ b ∈ bs, submit b = .ok ()) → submitSeq submit bs = (bs, none)) := by
  subst hbs
  have hn0 : n ≠ 0 := by omega
  refine ⟨?_, chunks_length stocks n hn0, chunks_dropLast_length stocks n hn0,
    chunks_getLast_length stocks n hn0,
    fun k e hk hok herr => submitSeq_stops submit (chunks stocks n) k e hk hok herr,
    submitSeq_all_ok submit (chunks stocks n)⟩
  have h1 : (n : Int) ≠ 0 := by omega
  have h2 : ¬(n : Int) < 0 := by omega
  simp only [upload_batches, divide, h1, h2, if_neg, if_false, Int.toNat_natCast]
  rfl

/-- Submission stub for the C2 witness: rejects the batch `[3, 4]`,
accepts everything else. -/
def wSubmit : List Nat → Except String Unit :=
  fun b => if b = [3, 4] then .error "rejected" else .ok ()

/-- C2 witness: stocks `[1..5]`, batch size 2 — three batches
`[1,2] [3,4] [5]`; the rejection of the 2nd batch means exactly the
first two are submitted and the error propagates. -/
theorem C2_upload_batching_witness :
    upload_batches [1, 2, 3, 4, 5] (2 : Int) wSubmit
      = .ok ([[1, 2], [3, 4]], some "rejected") := by
  have h := C2_upload_batching [1, 2, 3, 4, 5] 2 (by omega) wSubmit
    [[1, 2], [3, 4], [5]] (by simp [chunks])
  rw [show ((2 : Nat) : Int) = (2 : Int) by norm_num] at h
  have h5 := h.2.2.2.2.1 1 "rejected" (by simp)
    (fun j hj => by
      have hj0 : j = 0 := by omega
      subst hj0
      rfl)
    rfl
  rw [h.1, h5]
  rfl

/-- C9: both pagination variants of `get_offer_ids` terminate once the
upstream signals the end of the catalog — the Yandex variant on the
first empty `nextPageToken`, the Ozon variant on the first page whose
reported `total` equals the accumulated entry count — and return the
offer ids of all accumulated entries in discovery order across pages,
without deduplication. -/
theorem C9_get_offer_ids :
    (∀ (fetch : String → MarketPage) (k : Nat),
      (fetch (marketCursor fetch k)).nextPageToken = "" →
      (∀ i, i < k → (fetch (marketCursor fetch i)).nextPageToken ≠ "") →
      ∀ fuel, k < fuel →
        market_get_offer_ids fetch fuel
          = some ((marketEntriesFrom fetch 0 k).map MarketEntry.shopSku)) ∧
    (∀ (fetch : String → SellerPage) (k : Nat),
      (fetch (sellerCursor fetch k)).total = ((sellerAccBefore fetch (k + 1)).length : Int) →
      (∀ i, i < k →
        (fetch (sellerCursor fetch i)).total ≠ ((sellerAccBefore fetch (i + 1)).length : Int)) →
      ∀ fuel, k < fuel →
        seller_get_offer_ids fetch fuel
          = some ((sellerAccBefore fetch (k + 1)).map SellerItem.offer_id)) := by
  constructor
  · intro fetch k hterm hmin fuel hfuel
    have hgo := market_loop_go fetch k hterm hmin k 0 [] fuel (by omega) (by omega)
    have hc0 : marketCursor fetch 0 = "" := rfl
    rw [hc0] at hgo
    simp only [market_get_offer_ids, hgo, List.nil_append]
    rfl
  · intro fetch k hterm hmin fuel hfuel
    have hgo := seller_loop_go fetch k hterm hmin k 0 fuel (by omega) (by omega)
    have hc0 : sellerCursor fetch 0 = "" := rfl
    have ha0 : sellerAccBefore fetch 0 = [] := rfl
    rw [hc0, ha0] at hgo
    simp only [seller_get_offer_ids, hgo]
    rfl

/-- Fetch stub for the C9 witness, Yandex variant: page at token "" has
entries a, b and next token "p2"; the page at "p2" (and any other
token) has entry c and an empty next token. -/
def wFetchM : String → MarketPage :=
  fun c => if c = "" then MarketPage.mk [MarketEntry.mk "a", MarketEntry.mk "b"] "p2"
    else MarketPage.mk [MarketEntry.mk "c"] ""

/-- Fetch stub for the C9 witness, Ozon variant: page at `last_id` ""
has one item x, total 3, next `last_id` "id1"; every other page has
items y, z and total 3, which then equals the accumulated count. -/
def wFetchS : String → SellerPage :=
  fun c => if c = "" then SellerPage.mk [SellerItem.mk "x"] 3 "id1"
    else SellerPage.mk [SellerItem.mk "y", SellerItem.mk "z"] 3 "id2"

/-- C9 witness: both variants applied to two-page concrete catalogs,
with fuel 2. -/
theorem C9_get_offer_ids_witness :
    market_get_offer_ids wFetchM 2 = some ["a", "b", "c"] ∧
    seller_get_offer_ids wFetchS 2 = some ["x", "y", "z"] := by
  constructor
  · have h := C9_get_offer_ids.1 wFetchM 1 rfl
      (fun i hi => by
        have hi0 : i = 0 := by omega
        subst hi0
        decide)
      2 (by omega)
    rw [h]
    rfl
  · have h := C9_get_offer_ids.2 wFetchS 1 rfl
      (fun i hi => by
        have hi0 : i = 0 := by omega
        subst hi0
        decide)
      2 (by omega)
    rw [h]
    rfl
